import Mathlib

/-!
Verification of the Sudoku duel engine (`sudoku_duel.py`): grid data model,
candidate calculator, puzzle generator (base pattern + symmetry shuffle +
cell removal), lazy-deletion priority frontier, and the move engine
(human edit handler and greedy automated mover).

The 9x9 board is embedded as a function `Fin 9 → Fin 9 → Nat` (0 = empty).
The heap `self.pq` is embedded as a list of entries; `heappush` appends and
extraction removes a minimal element with respect to the lexicographic key
(candidate count, row, col), matching `heapq` tuple ordering up to the
unspecified tie order among entries with identical count and coordinates.
Randomness is abstracted: the shuffled digit relabeling, the four shuffle
permutations, the removal cell list, and the AI digit chooser are explicit
parameters ranging over everything the random source can produce.
-/

/-- Board: 9x9 matrix of digits, 0 meaning empty. -/
def Board : Type := Fin 9 → Fin 9 → Nat

/-- Single-cell assignment, `board[r][c] = v`. -/
def updateB (b : Board) (r c : Fin 9) (v : Nat) : Board :=
  fun x y => if x = r ∧ y = c then v else b x y

/-- Cell index inside the 3x3 box of `x`: `3 * (x // 3) + i` for `i < 3`. -/
def boxIdx (x : Fin 9) (i : Fin 3) : Fin 9 :=
  ⟨3 * (x.val / 3) + i.val, by omega⟩

/-- Source `is_valid(board, row, col, num)`: `num` occurs nowhere in row
`row`, column `col`, or the 3x3 box containing `(row, col)`. -/
def is_valid (board : Board) (row col : Fin 9) (num : Nat) : Bool :=
  if (List.finRange 9).any (fun j => board row j = num) then false
  else if (List.finRange 9).any (fun i => board i col = num) then false
  else if (List.finRange 3).any (fun i =>
      (List.finRange 3).any (fun j => board (boxIdx row i) (boxIdx col j) = num)) then false
  else true

/-- Digits present in row `row` of the board. -/
def rowDigits (board : Board) (row : Fin 9) : Finset Nat :=
  Finset.image (fun j => board row j) Finset.univ

/-- Digits present in column `col` of the board. -/
def colDigits (board : Board) (col : Fin 9) : Finset Nat :=
  Finset.image (fun i => board i col) Finset.univ

/-- Digits present in the 3x3 box containing `(row, col)`. -/
def boxDigits (board : Board) (row col : Fin 9) : Finset Nat :=
  Finset.image (fun p : Fin 3 × Fin 3 => board (boxIdx row p.1) (boxIdx col p.2)) Finset.univ

/-- Source `get_candidates(board, row, col)`: empty set for a filled cell,
otherwise `set(range(1,10))` minus row, column and box digits. -/
def get_candidates (board : Board) (row col : Fin 9) : Finset Nat :=
  if board row col ≠ 0 then ∅
  else ((Finset.Ico 1 10 \ rowDigits board row) \ colDigits board col) \ boxDigits board row col

/-- Modeled from the spec, for refinement comparison with `get_candidates`:
"{1..9} minus {digits present in row r} minus {digits present in column c}
minus {digits present in the containing 3x3 box}". -/
def candidatesSpec (board : Board) (row col : Fin 9) : Finset Nat :=
  ((Finset.Icc 1 9 \ rowDigits board row) \ colDigits board col) \ boxDigits board row col

/-- Source `is_complete`: no cell equals 0. -/
def is_complete (board : Board) : Bool :=
  (List.finRange 9).all (fun i => (List.finRange 9).all (fun j => board i j ≠ 0))

/-- Sudoku validity invariant of the data model: no two equal nonzero digits
share a row, a column, or a 3x3 box. -/
def validGrid (g : Board) : Prop :=
  (∀ r c1 c2 : Fin 9, g r c1 ≠ 0 → g r c1 = g r c2 → c1 = c2) ∧
  (∀ c r1 r2 : Fin 9, g r1 c ≠ 0 → g r1 c = g r2 c → r1 = r2) ∧
  (∀ r1 c1 r2 c2 : Fin 9, r1.val / 3 = r2.val / 3 → c1.val / 3 = c2.val / 3 →
    g r1 c1 ≠ 0 → g r1 c1 = g r2 c2 → r1 = r2 ∧ c1 = c2)

instance validGrid_decidable (g : Board) : Decidable (validGrid g) := by
  unfold validGrid; infer_instance

/-- Source base-pattern formula `(3 * (r % 3) + r // 3 + c) % 9`. -/
def pattern (r c : Fin 9) : Fin 9 :=
  ⟨(3 * (r.val % 3) + r.val / 3 + c.val) % 9, Nat.mod_lt _ (by omega)⟩

/-- Source `get_base_pattern` with the shuffled relabeling `nums` abstracted
as a parameter: `board[r][c] = nums[pattern(r, c)]`. -/
def get_base_pattern (nums : Fin 9 → Nat) : Board :=
  fun r c => nums (pattern r c)

/-- Band index `r // 3` of a row or column index. -/
def bandIdx (r : Fin 9) : Fin 3 := ⟨r.val / 3, by omega⟩

/-- Offset `r % 3` of an index inside its band. -/
def subIdx (r : Fin 9) : Fin 3 := ⟨r.val % 3, Nat.mod_lt _ (by omega)⟩

/-- Recombine a band index and an in-band offset into a full index. -/
def mk9 (b k : Fin 3) : Fin 9 := ⟨3 * b.val + k.val, by omega⟩

/-- Source shuffle step 1 (and, through transpose, step 2): within each band
`b`, row `3*b + k` is replaced by row `3*b + σ b k`. -/
def permuteRowsInBands (σ : Fin 3 → Fin 3 → Fin 3) (g : Board) : Board :=
  fun r c => g (mk9 (bandIdx r) (σ (bandIdx r) (subIdx r))) c

/-- Source shuffle step 3 (and, through transpose, step 4): band `b` of the
result is band `τ b` of the input. -/
def permuteBands (τ : Fin 3 → Fin 3) (g : Board) : Board :=
  fun r c => g (mk9 (τ (bandIdx r)) (subIdx r)) c

/-- Source `zip(*board)` transposition. -/
def transpose (g : Board) : Board := fun r c => g c r

/-- Source `shuffle_board`: rows within bands, then columns within stacks
(via transpose), then whole row bands, then whole column stacks. -/
def shuffle_board (σR σC : Fin 3 → Fin 3 → Fin 3) (τR τC : Fin 3 → Fin 3)
    (g : Board) : Board :=
  transpose (permuteBands τC (transpose (permuteBands τR
    (transpose (permuteRowsInBands σC (transpose (permuteRowsInBands σR g)))))))

/-- Source cell-removal loop of `generate_puzzle`: zero out each listed cell. -/
def erase_cells (b : Board) : List (Fin 9 × Fin 9) → Board
  | [] => b
  | p :: ps => erase_cells (updateB b p.1 p.2 0) ps

/-- Source `generate_puzzle`: base pattern, shuffle, then removal of the
cells drawn by the random shuffle of all 81 positions. -/
def generate_puzzle (nums : Fin 9 → Nat) (σR σC : Fin 3 → Fin 3 → Fin 3)
    (τR τC : Fin 3 → Fin 3) (rem : List (Fin 9 × Fin 9)) : Board :=
  erase_cells (shuffle_board σR σC τR τC (get_base_pattern nums)) rem

/-- Frontier entry `(candidateCount, row, col, candidateSetSnapshot)` as
pushed by `heappush`. -/
structure Entry where
  count : Nat
  row : Fin 9
  col : Fin 9
  cands : Finset Nat
deriving DecidableEq

/-- Lexicographic heap key on (count, row, col). -/
def Entry.key (e : Entry) : Nat := e.count * 81 + e.row.val * 9 + e.col.val

/-- Heap extraction (`heappop`): the first minimal-key entry and the rest. -/
def popMin : List Entry → Option (Entry × List Entry)
  | [] => none
  | e :: es =>
    match popMin es with
    | none => some (e, [])
    | some (m, rest) => if e.key ≤ m.key then some (e, es) else some (m, e :: rest)

/-- Fresh entry for a cell, with candidates recomputed against `board`. -/
def entryFor (board : Board) (p : Fin 9 × Fin 9) : Entry :=
  ⟨(get_candidates board p.1 p.2).card, p.1, p.2, get_candidates board p.1 p.2⟩

/-- Source neighbour set of `update_neighbors`: all cells of row `r`, all
cells of column `c`, and all cells of the box of `(r, c)`, deduplicated. -/
def neighborList (r c : Fin 9) : List (Fin 9 × Fin 9) :=
  (((List.finRange 9).map (fun i => (r, i))) ++
   ((List.finRange 9).map (fun i => (i, c))) ++
   ((List.finRange 3).flatMap (fun i => (List.finRange 3).map (fun j =>
     (boxIdx r i, boxIdx c j))))).dedup

/-- Source `update_neighbors`: push one fresh entry per neighbour onto the
frontier, unconditionally; stale entries stay (lazy deletion). -/
def update_neighbors (pq : List Entry) (board : Board) (r c : Fin 9) : List Entry :=
  pq ++ (neighborList r c).map (entryFor board)

/-- Source `initialize_priority_queue` (also `build_priority_queue`): one
entry per empty cell whose candidate set is nonempty. -/
def init_priority_queue (board : Board) : List Entry :=
  (List.finRange 9).flatMap (fun i => (List.finRange 9).filterMap (fun j =>
    if board i j = 0 ∧ get_candidates board i j ≠ ∅ then some (entryFor board (i, j))
    else none))

/-- Result of a successful `ai_make_move`: the cell acted on, the digit
placed, and the updated board and frontier. -/
structure AIMove where
  row : Fin 9
  col : Fin 9
  val : Nat
  board : Board
  pq : List Entry

/-- Extraction loop of `ai_make_move`, fuelled by the frontier length: pop
the best entry; discard it if its cell is already filled; on a live cell
with empty recomputed candidates stop with no move; otherwise place the
chosen digit and refresh the neighbours. -/
def aiLoop (pick : List Nat → Nat) (board : Board) : Nat → List Entry → Option AIMove
  | 0, _ => none
  | fuel + 1, pq =>
    match popMin pq with
    | none => none
    | some (e, rest) =>
      if board e.row e.col ≠ 0 then aiLoop pick board fuel rest
      else if get_candidates board e.row e.col = ∅ then none
      else
        let v := pick ((get_candidates board e.row e.col).sort (· ≤ ·))
        let b2 := updateB board e.row e.col v
        some ⟨e.row, e.col, v, b2, update_neighbors rest b2 e.row e.col⟩

/-- Source `ai_make_move`, with `random.choice` abstracted as `pick` applied
to the sorted candidate list. -/
def ai_make_move (pick : List Nat → Nat) (pq : List Entry) (board : Board) : Option AIMove :=
  aiLoop pick board pq.length pq

/-- Stale-entry cleanup at the top of the heap in `show_hint`. -/
def cleanTop (board : Board) : Nat → List Entry → List Entry
  | 0, pq => pq
  | fuel + 1, pq =>
    match popMin pq with
    | none => pq
    | some (e, rest) => if board e.row e.col ≠ 0 then cleanTop board fuel rest else pq

/-- Source `show_hint`: clean stale entries off the top, then peek the best
live entry without consuming it, reporting recomputed candidates. -/
def show_hint (board : Board) (pq : List Entry) :
    Option (Fin 9 × Fin 9 × Finset Nat) × List Entry :=
  let pq2 := cleanTop board pq.length pq
  match popMin pq2 with
  | none => (none, pq2)
  | some (e, _) => (some (e.row, e.col, get_candidates board e.row e.col), pq2)

/-- Whose-turn flag. -/
inductive Turn where
  | user
  | ai
deriving DecidableEq

/-- Provenance colour of a filled cell. -/
inductive CellColor where
  | user
  | ai
deriving DecidableEq

/-- Session state: board, fixed-clue snapshot, turn flag, cell colours and
the live frontier. -/
structure GameState where
  board : Board
  initial_board : Board
  current_turn : Turn
  cell_colors : Fin 9 → Fin 9 → Option CellColor
  pq : List Entry

/-- Content of the edited text cell: empty, an integer, or non-numeric. -/
inductive Input where
  | empty
  | num (n : Int)
  | other
deriving DecidableEq

/-- Outcome of `on_cell_edit`. -/
inductive EditResult where
  | ignoredTurn
  | ignoredLocked
  | cleared
  | parseError
  | accepted
  | invalidMove
deriving DecidableEq

/-- Source `on_cell_edit`: ignore when it is not the user's turn or the cell
is locked; empty input clears the cell; a non-numeric or out-of-range input
lands in the `except ValueError` branch, which zeroes the cell; an in-range
digit is validated against the board with the cell hypothetically cleared,
then either written (with a neighbour refresh and a turn switch unless the
board is complete) or rolled back. -/
def on_cell_edit (s : GameState) (r c : Fin 9) (input : Input) : GameState × EditResult :=
  if s.current_turn ≠ Turn.user then (s, .ignoredTurn)
  else if s.initial_board r c ≠ 0 then (s, .ignoredLocked)
  else
    match input with
    | .empty =>
      ({ s with
         board := updateB s.board r c 0,
         cell_colors := fun x y => if x = r ∧ y = c then none else s.cell_colors x y },
       .cleared)
    | .other => ({ s with board := updateB s.board r c 0 }, .parseError)
    | .num n =>
      if n < 1 ∨ 9 < n then ({ s with board := updateB s.board r c 0 }, .parseError)
      else
        let numv := n.toNat
        let temp := s.board r c
        let b0 := updateB s.board r c 0
        if is_valid b0 r c numv then
          let b1 := updateB b0 r c numv
          let s1 : GameState :=
            { s with
              board := b1,
              pq := update_neighbors s.pq b1 r c,
              cell_colors := fun x y => if x = r ∧ y = c then some .user
                else s.cell_colors x y }
          if is_complete b1 then (s1, .accepted)
          else ({ s1 with current_turn := .ai }, .accepted)
        else ({ s with board := updateB b0 r c temp }, .invalidMove)

/-- Source `new_game`: generate a puzzle, snapshot it as the clue mask,
reset turn and colours, and build the frontier from the puzzle. -/
def new_game (nums : Fin 9 → Nat) (σR σC : Fin 3 → Fin 3 → Fin 3)
    (τR τC : Fin 3 → Fin 3) (rem : List (Fin 9 × Fin 9)) : GameState :=
  let puzzle := generate_puzzle nums σR σC τR τC rem
  { board := puzzle, initial_board := puzzle, current_turn := .user,
    cell_colors := fun _ _ => none, pq := init_priority_queue puzzle }

/-- Source `__init__`: `new_game()` runs first, then `self.pq = []`
overwrites the frontier that `new_game` just built. -/
def init_session (nums : Fin 9 → Nat) (σR σC : Fin 3 → Fin 3 → Fin 3)
    (τR τC : Fin 3 → Fin 3) (rem : List (Fin 9 × Fin 9)) : GameState :=
  { new_game nums σR σC τR τC rem with pq := [] }

/-- Source `reset_board`: restore the grid from the clue snapshot, reset the
turn flag and colours; the frontier field is not touched. -/
def reset_board (s : GameState) : GameState :=
  { s with
    board := s.initial_board,
    current_turn := .user,
    cell_colors := fun _ _ => none }

/-- Board that is empty everywhere. -/
def emptyBoard : Board := fun _ _ => 0

/-- Board holding a single 5 at (0,0), used for concrete evaluations. -/
def cexBoard : Board := fun r c => if r = 0 ∧ c = 0 then 5 else 0

/-- Digit chooser that takes the first candidate; one concrete instance of
`random.choice`. -/
def pickHead (l : List Nat) : Nat := l.headD 0

/-- Fresh session over the empty board with one user-entered 5 at (0,0),
used for concrete evaluations. -/
def cexState : GameState :=
  { board := cexBoard, initial_board := emptyBoard, current_turn := .user,
    cell_colors := fun _ _ => none, pq := [] }

/-- Untouched session over the all-empty board, used for concrete
evaluations. -/
def wState : GameState :=
  { board := emptyBoard, initial_board := emptyBoard, current_turn := .user,
    cell_colors := fun _ _ => none, pq := [] }

/-- One-entry frontier used for concrete evaluations. -/
def pq1 : List Entry := [⟨9, 0, 0, ∅⟩]

theorem updateB_same (b : Board) (r c : Fin 9) (v : Nat) : updateB b r c v r c = v := by
  simp [updateB]

theorem updateB_other (b : Board) (r c x y : Fin 9) (v : Nat) (h : ¬(x = r ∧ y = c)) :
    updateB b r c v x y = b x y := by
  simp [updateB, h]

theorem pattern_row_inj : ∀ r c1 c2 : Fin 9, pattern r c1 = pattern r c2 → c1 = c2 := by
  decide

theorem pattern_col_inj : ∀ c r1 r2 : Fin 9, pattern r1 c = pattern r2 c → r1 = r2 := by
  decide

theorem pattern_box_inj : ∀ r1 c1 r2 c2 : Fin 9, r1.val / 3 = r2.val / 3 →
    c1.val / 3 = c2.val / 3 → pattern r1 c1 = pattern r2 c2 → r1 = r2 ∧ c1 = c2 := by
  decide

/-- Validity of the canonical pattern under any injective relabeling. -/
theorem base_pattern_valid (nums : Fin 9 → Nat) (hinj : Function.Injective nums) :
    validGrid (get_base_pattern nums) := by
  refine ⟨fun r c1 c2 _ heq => ?_, fun c r1 r2 _ heq => ?_,
    fun r1 c1 r2 c2 hr hc _ heq => ?_⟩
  · exact pattern_row_inj r c1 c2 (hinj heq)
  · exact pattern_col_inj c r1 r2 (hinj heq)
  · exact pattern_box_inj r1 c1 r2 c2 hr hc (hinj heq)

theorem transpose_valid {g : Board} (h : validGrid g) : validGrid (transpose g) := by
  obtain ⟨hr, hc, hb⟩ := h
  refine ⟨fun r c1 c2 hne heq => hc r c1 c2 hne heq,
    fun c r1 r2 hne heq => hr c r1 r2 hne heq,
    fun r1 c1 r2 c2 h3r h3c hne heq => ?_⟩
  obtain ⟨h1, h2⟩ := hb c1 r1 c2 r2 h3c h3r hne heq
  exact ⟨h2, h1⟩

/-- Relocating whole rows by any injective, band-compatible row permutation
preserves the validity invariant. -/
theorem rowPerm_valid {g : Board} (ρ : Fin 9 → Fin 9) (hinj : Function.Injective ρ)
    (hband : ∀ r1 r2 : Fin 9, r1.val / 3 = r2.val / 3 → (ρ r1).val / 3 = (ρ r2).val / 3)
    (h : validGrid g) : validGrid (fun r c => g (ρ r) c) := by
  obtain ⟨hr, hc, hb⟩ := h
  refine ⟨fun r c1 c2 hne heq => hr (ρ r) c1 c2 hne heq,
    fun c r1 r2 hne heq => hinj (hc c (ρ r1) (ρ r2) hne heq),
    fun r1 c1 r2 c2 h3r h3c hne heq => ?_⟩
  obtain ⟨h1, h2⟩ := hb (ρ r1) c1 (ρ r2) c2 (hband r1 r2 h3r) h3c hne heq
  exact ⟨hinj h1, h2⟩

theorem mk9_val_div (b k : Fin 3) : (mk9 b k).val / 3 = b.val := by
  have hb := b.isLt
  have hk := k.isLt
  simp only [mk9]
  omega

theorem mk9_inj {b1 k1 b2 k2 : Fin 3} (h : mk9 b1 k1 = mk9 b2 k2) : b1 = b2 ∧ k1 = k2 := by
  have hv := congrArg Fin.val h
  simp only [mk9] at hv
  have hb1 := b1.isLt
  have hb2 := b2.isLt
  have hk1 := k1.isLt
  have hk2 := k2.isLt
  exact ⟨Fin.ext (by omega), Fin.ext (by omega)⟩

theorem mk9_band_sub (r : Fin 9) : mk9 (bandIdx r) (subIdx r) = r := by
  apply Fin.ext
  simp only [mk9, bandIdx, subIdx]
  omega

theorem bandIdx_val (r : Fin 9) : (bandIdx r).val = r.val / 3 := rfl

theorem permuteRowsInBands_valid {g : Board} (σ : Fin 3 → Fin 3 → Fin 3)
    (hσ : ∀ b, Function.Injective (σ b)) (h : validGrid g) :
    validGrid (permuteRowsInBands σ g) := by
  refine rowPerm_valid (fun r => mk9 (bandIdx r) (σ (bandIdx r) (subIdx r))) ?_ ?_ h
  · intro r1 r2 heq
    replace heq : mk9 (bandIdx r1) (σ (bandIdx r1) (subIdx r1)) =
        mk9 (bandIdx r2) (σ (bandIdx r2) (subIdx r2)) := heq
    obtain ⟨hb, hs⟩ := mk9_inj heq
    rw [hb] at hs
    have hsub : subIdx r1 = subIdx r2 := hσ (bandIdx r2) hs
    have : mk9 (bandIdx r1) (subIdx r1) = mk9 (bandIdx r2) (subIdx r2) := by
      rw [hb, hsub]
    rwa [mk9_band_sub, mk9_band_sub] at this
  · intro r1 r2 h3
    show (mk9 (bandIdx r1) (σ (bandIdx r1) (subIdx r1))).val / 3 =
      (mk9 (bandIdx r2) (σ (bandIdx r2) (subIdx r2))).val / 3
    rw [mk9_val_div, mk9_val_div, bandIdx_val, bandIdx_val, h3]

theorem permuteBands_valid {g : Board} (τ : Fin 3 → Fin 3)
    (hτ : Function.Injective τ) (h : validGrid g) :
    validGrid (permuteBands τ g) := by
  refine rowPerm_valid (fun r => mk9 (τ (bandIdx r)) (subIdx r)) ?_ ?_ h
  · intro r1 r2 heq
    replace heq : mk9 (τ (bandIdx r1)) (subIdx r1) =
        mk9 (τ (bandIdx r2)) (subIdx r2) := heq
    obtain ⟨hb, hs⟩ := mk9_inj heq
    have hband : bandIdx r1 = bandIdx r2 := hτ hb
    have : mk9 (bandIdx r1) (subIdx r1) = mk9 (bandIdx r2) (subIdx r2) := by
      rw [hband, hs]
    rwa [mk9_band_sub, mk9_band_sub] at this
  · intro r1 r2 h3
    show (mk9 (τ (bandIdx r1)) (subIdx r1)).val / 3 =
      (mk9 (τ (bandIdx r2)) (subIdx r2)).val / 3
    have : bandIdx r1 = bandIdx r2 := Fin.ext (by rw [bandIdx_val, bandIdx_val, h3])
    rw [mk9_val_div, mk9_val_div, this]

/-- Shared helper: the full shuffle preserves the validity invariant. -/
theorem shuffle_board_valid {g : Board} (σR σC : Fin 3 → Fin 3 → Fin 3)
    (τR τC : Fin 3 → Fin 3)
    (hσR : ∀ b, Function.Injective (σR b)) (hσC : ∀ b, Function.Injective (σC b))
    (hτR : Function.Injective τR) (hτC : Function.Injective τC)
    (h : validGrid g) : validGrid (shuffle_board σR σC τR τC g) := by
  unfold shuffle_board
  exact transpose_valid (permuteBands_valid τC hτC (transpose_valid
    (permuteBands_valid τR hτR (transpose_valid (permuteRowsInBands_valid σC hσC
      (transpose_valid (permuteRowsInBands_valid σR hσR h)))))))

/-- Every cell of the shuffled board is a cell of the input board. -/
theorem shuffle_board_pointwise (σR σC : Fin 3 → Fin 3 → Fin 3) (τR τC : Fin 3 → Fin 3)
    (g : Board) (P : Nat → Prop) (hP : ∀ r c, P (g r c)) :
    ∀ r c, P (shuffle_board σR σC τR τC g r c) := by
  intro r c
  simp only [shuffle_board, transpose, permuteBands, permuteRowsInBands]
  exact hP _ _

theorem mem_rowDigits (g : Board) (r c : Fin 9) : g r c ∈ rowDigits g r :=
  Finset.mem_image.mpr ⟨c, Finset.mem_univ c, rfl⟩

theorem mem_colDigits (g : Board) (r c : Fin 9) : g r c ∈ colDigits g c :=
  Finset.mem_image.mpr ⟨r, Finset.mem_univ r, rfl⟩

theorem boxIdx_subIdx {x y : Fin 9} (h : y.val / 3 = x.val / 3) : boxIdx x (subIdx y) = y := by
  apply Fin.ext
  simp only [boxIdx, subIdx]
  omega

theorem mem_boxDigits (g : Board) {r c r2 c2 : Fin 9} (hr : r2.val / 3 = r.val / 3)
    (hc : c2.val / 3 = c.val / 3) : g r2 c2 ∈ boxDigits g r c := by
  refine Finset.mem_image.mpr ⟨(subIdx r2, subIdx c2), Finset.mem_univ _, ?_⟩
  rw [boxIdx_subIdx hr, boxIdx_subIdx hc]

theorem row_any_iff (board : Board) (r : Fin 9) (d : Nat) :
    ((List.finRange 9).any (fun j => board r j = d) = true) ↔ d ∈ rowDigits board r := by
  rw [List.any_eq_true]
  constructor
  · rintro ⟨j, _, hdec⟩
    rw [decide_eq_true_eq] at hdec
    rw [← hdec]
    exact mem_rowDigits board r j
  · intro hd
    obtain ⟨j, _, hjd⟩ := Finset.mem_image.mp hd
    refine ⟨j, List.mem_finRange j, ?_⟩
    rw [decide_eq_true_eq]
    exact hjd

theorem col_any_iff (board : Board) (c : Fin 9) (d : Nat) :
    ((List.finRange 9).any (fun i => board i c = d) = true) ↔ d ∈ colDigits board c := by
  rw [List.any_eq_true]
  constructor
  · rintro ⟨i, _, hdec⟩
    rw [decide_eq_true_eq] at hdec
    rw [← hdec]
    exact mem_colDigits board i c
  · intro hd
    obtain ⟨i, _, hid⟩ := Finset.mem_image.mp hd
    refine ⟨i, List.mem_finRange i, ?_⟩
    rw [decide_eq_true_eq]
    exact hid

theorem box_any_iff (board : Board) (r c : Fin 9) (d : Nat) :
    ((List.finRange 3).any (fun i => (List.finRange 3).any (fun j =>
      board (boxIdx r i) (boxIdx c j) = d)) = true) ↔ d ∈ boxDigits board r c := by
  rw [List.any_eq_true]
  constructor
  · rintro ⟨i, _, hinner⟩
    obtain ⟨j, _, hdec⟩ := List.any_eq_true.mp hinner
    rw [decide_eq_true_eq] at hdec
    exact Finset.mem_image.mpr ⟨(i, j), Finset.mem_univ _, hdec⟩
  · intro hd
    obtain ⟨p, _, hp⟩ := Finset.mem_image.mp hd
    refine ⟨p.1, List.mem_finRange p.1, List.any_eq_true.mpr
      ⟨p.2, List.mem_finRange p.2, ?_⟩⟩
    rw [decide_eq_true_eq]
    exact hp

/-- Characterization of the source validator as peer-digit avoidance. -/
theorem is_valid_true_iff (board : Board) (r c : Fin 9) (d : Nat) :
    is_valid board r c d = true ↔
      d ∉ rowDigits board r ∧ d ∉ colDigits board c ∧ d ∉ boxDigits board r c := by
  unfold is_valid
  split_ifs with h1 h2 h3
  · rw [row_any_iff] at h1
    simp [h1]
  · rw [col_any_iff] at h2
    simp [h2]
  · rw [box_any_iff] at h3
    simp [h3]
  · rw [row_any_iff] at h1
    rw [col_any_iff] at h2
    rw [box_any_iff] at h3
    simp [h1, h2, h3]

/-- Membership in the source candidate set of an empty cell. -/
theorem mem_get_candidates_iff (board : Board) (r c : Fin 9) (d : Nat)
    (h0 : board r c = 0) :
    d ∈ get_candidates board r c ↔
      (1 ≤ d ∧ d ≤ 9) ∧ d ∉ rowDigits board r ∧ d ∉ colDigits board c ∧
        d ∉ boxDigits board r c := by
  simp only [get_candidates, h0, ne_eq, not_true_eq_false, if_false, ite_false,
    not_false_eq_true, Finset.mem_sdiff, Finset.mem_Ico]
  constructor
  · rintro ⟨⟨⟨⟨hd1, hd2⟩, hr⟩, hc⟩, hb⟩
    exact ⟨⟨hd1, by omega⟩, hr, hc, hb⟩
  · rintro ⟨⟨hd1, hd2⟩, hr, hc, hb⟩
    exact ⟨⟨⟨⟨hd1, by omega⟩, hr⟩, hc⟩, hb⟩

/-- Shared bridge: for an empty cell and a digit in 1..9, candidate
membership and `is_valid` agree. -/
theorem mem_candidates_iff_valid (board : Board) (r c : Fin 9) (d : Nat)
    (h0 : board r c = 0) (h1 : 1 ≤ d) (h9 : d ≤ 9) :
    d ∈ get_candidates board r c ↔ is_valid board r c d = true := by
  rw [mem_get_candidates_iff board r c d h0, is_valid_true_iff]
  exact ⟨fun h => h.2, fun h => ⟨⟨h1, h9⟩, h⟩⟩

/-- Shrinking nonzero content pointwise preserves the validity invariant. -/
theorem validGrid_of_agree {g g' : Board} (hag : ∀ x y, g' x y ≠ 0 → g' x y = g x y)
    (h : validGrid g) : validGrid g' := by
  obtain ⟨h1, h2, h3⟩ := h
  refine ⟨fun r c1 c2 hne heq => ?_, fun c r1 r2 hne heq => ?_,
    fun r1 c1 r2 c2 h3r h3c hne heq => ?_⟩
  · have e1 := hag r c1 hne
    have hne2 : g' r c2 ≠ 0 := heq ▸ hne
    have e2 := hag r c2 hne2
    exact h1 r c1 c2 (e1 ▸ hne) (by rw [← e1, ← e2, heq])
  · have e1 := hag r1 c hne
    have hne2 : g' r2 c ≠ 0 := heq ▸ hne
    have e2 := hag r2 c hne2
    exact h2 c r1 r2 (e1 ▸ hne) (by rw [← e1, ← e2, heq])
  · have e1 := hag r1 c1 hne
    have hne2 : g' r2 c2 ≠ 0 := heq ▸ hne
    have e2 := hag r2 c2 hne2
    exact h3 r1 c1 r2 c2 h3r h3c (e1 ▸ hne) (by rw [← e1, ← e2, heq])

/-- Clearing one cell preserves the validity invariant. -/
theorem validGrid_clear {g : Board} (r c : Fin 9) (h : validGrid g) :
    validGrid (updateB g r c 0) := by
  refine validGrid_of_agree (fun x y hne => ?_) h
  by_cases hxy : x = r ∧ y = c
  · exfalso
    apply hne
    simp [updateB, hxy]
  · exact updateB_other g r c x y 0 hxy

/-- Zeroing any list of cells preserves the validity invariant. -/
theorem erase_cells_valid {g : Board} (l : List (Fin 9 × Fin 9)) (h : validGrid g) :
    validGrid (erase_cells g l) := by
  induction l generalizing g with
  | nil => exact h
  | cons p ps ih => exact ih (validGrid_clear p.1 p.2 h)

/-- Writing a validated nonzero digit into an empty cell preserves the
validity invariant. -/
theorem validGrid_update {g : Board} {r c : Fin 9} {d : Nat} (h : validGrid g)
    (hval : is_valid g r c d = true) :
    validGrid (updateB g r c d) := by
  rw [is_valid_true_iff] at hval
  obtain ⟨hrow, hcol, hbox⟩ := hval
  obtain ⟨h1, h2, h3⟩ := h
  refine ⟨fun r' c1 c2 hne heq => ?_, fun c' r1 r2 hne heq => ?_,
    fun r1 c1 r2 c2 h3r h3c hne heq => ?_⟩
  · by_cases ha : r' = r ∧ c1 = c
    · by_cases hb : r' = r ∧ c2 = c
      · rw [ha.2, hb.2]
      · rw [updateB_other g r c r' c2 d hb] at heq
        rw [ha.1, ha.2, updateB_same] at heq
        have hmem : d ∈ rowDigits g r := by
          rw [heq]
          rw [ha.1] at *
          exact mem_rowDigits g r c2
        exact absurd hmem hrow
    · rw [updateB_other g r c r' c1 d ha] at hne heq
      by_cases hb : r' = r ∧ c2 = c
      · rw [hb.1, hb.2, updateB_same] at heq
        have hmem : d ∈ rowDigits g r := by
          rw [← heq]
          rw [hb.1] at *
          exact mem_rowDigits g r c1
        exact absurd hmem hrow
      · rw [updateB_other g r c r' c2 d hb] at heq
        exact h1 r' c1 c2 hne heq
  · by_cases ha : r1 = r ∧ c' = c
    · by_cases hb : r2 = r ∧ c' = c
      · rw [ha.1, hb.1]
      · rw [updateB_other g r c r2 c' d hb] at heq
        rw [ha.1, ha.2, updateB_same] at heq
        have hmem : d ∈ colDigits g c := by
          rw [heq]
          rw [ha.2] at *
          exact mem_colDigits g r2 c
        exact absurd hmem hcol
    · rw [updateB_other g r c r1 c' d ha] at hne heq
      by_cases hb : r2 = r ∧ c' = c
      · rw [hb.1, hb.2, updateB_same] at heq
        have hmem : d ∈ colDigits g c := by
          rw [← heq]
          rw [hb.2] at *
          exact mem_colDigits g r1 c
        exact absurd hmem hcol
      · rw [updateB_other g r c r2 c' d hb] at heq
        exact h2 c' r1 r2 hne heq
  · by_cases ha : r1 = r ∧ c1 = c
    · by_cases hb : r2 = r ∧ c2 = c
      · exact ⟨ha.1.trans hb.1.symm, ha.2.trans hb.2.symm⟩
      · rw [updateB_other g r c r2 c2 d hb] at heq
        rw [ha.1, ha.2, updateB_same] at heq
        have hr2 : r2.val / 3 = r.val / 3 := by rw [← h3r, ha.1]
        have hc2 : c2.val / 3 = c.val / 3 := by rw [← h3c, ha.2]
        have hmem : d ∈ boxDigits g r c := by
          rw [heq]
          exact mem_boxDigits g hr2 hc2
        exact absurd hmem hbox
    · rw [updateB_other g r c r1 c1 d ha] at hne heq
      by_cases hb : r2 = r ∧ c2 = c
      · rw [hb.1, hb.2, updateB_same] at heq
        have hr1 : r1.val / 3 = r.val / 3 := by rw [h3r, hb.1]
        have hc1 : c1.val / 3 = c.val / 3 := by rw [h3c, hb.2]
        have hmem : d ∈ boxDigits g r c := by
          rw [← heq]
          exact mem_boxDigits g hr1 hc1
        exact absurd hmem hbox
      · rw [updateB_other g r c r2 c2 d hb] at heq
        exact h3 r1 c1 r2 c2 h3r h3c hne heq

theorem popMin_eq_none {l : List Entry} (h : popMin l = none) : l = [] := by
  cases l with
  | nil => rfl
  | cons e es =>
    exfalso
    simp only [popMin] at h
    cases hm : popMin es with
    | none => rw [hm] at h; simp at h
    | some p =>
      obtain ⟨m, rest⟩ := p
      rw [hm] at h
      by_cases hk : e.key ≤ m.key <;> simp [hk] at h

theorem popMin_length : ∀ {l : List Entry} {e : Entry} {rest : List Entry},
    popMin l = some (e, rest) → rest.length + 1 = l.length := by
  intro l
  induction l with
  | nil => intro e rest h; simp [popMin] at h
  | cons a as ih =>
    intro e rest h
    simp only [popMin] at h
    cases hm : popMin as with
    | none =>
      rw [hm] at h
      have has : as = [] := popMin_eq_none hm
      simp only [Option.some.injEq, Prod.mk.injEq] at h
      rw [← h.2, has]
      rfl
    | some p =>
      obtain ⟨m, mrest⟩ := p
      rw [hm] at h
      dsimp only at h
      by_cases hk : a.key ≤ m.key
      · rw [if_pos hk] at h
        simp only [Option.some.injEq, Prod.mk.injEq] at h
        rw [← h.2]
        rfl
      · rw [if_neg hk] at h
        simp only [Option.some.injEq, Prod.mk.injEq] at h
        rw [← h.2]
        simp only [List.length_cons]
        rw [ih hm]

/-- Core facts about a successful automated move: the acted-on cell was
empty in the pre-move board, the digit placed came from the live candidate
set of that cell, and the new board is the old board with that one digit
written. -/
theorem aiLoop_some (pick : List Nat → Nat) (board : Board)
    (hpick : ∀ l : List Nat, l ≠ [] → pick l ∈ l) :
    ∀ (fuel : Nat) (pq : List Entry) (res : AIMove),
      aiLoop pick board fuel pq = some res →
      board res.row res.col = 0 ∧ res.val ∈ get_candidates board res.row res.col ∧
        res.board = updateB board res.row res.col res.val := by
  intro fuel
  induction fuel with
  | zero => intro pq res h; simp [aiLoop] at h
  | succ n ih =>
    intro pq res h
    simp only [aiLoop] at h
    cases hm : popMin pq with
    | none => rw [hm] at h; simp at h
    | some p =>
      obtain ⟨e, rest⟩ := p
      rw [hm] at h
      dsimp only at h
      by_cases hfill : board e.row e.col ≠ 0
      · rw [if_pos hfill] at h
        exact ih rest res h
      · rw [if_neg hfill] at h
        by_cases hc : get_candidates board e.row e.col = ∅
        · rw [if_pos hc] at h
          simp at h
        · rw [if_neg hc] at h
          simp only [Option.some.injEq] at h
          rw [← h]
          push_neg at hfill
          have hsort : (get_candidates board e.row e.col).sort (· ≤ ·) ≠ [] := by
            intro hnil
            apply hc
            have hlen := Finset.length_sort (α := Nat) (· ≤ ·)
              (s := get_candidates board e.row e.col)
            rw [hnil] at hlen
            exact Finset.card_eq_zero.mp hlen.symm
          have hmem := hpick _ hsort
          rw [Finset.mem_sort] at hmem
          exact ⟨hfill, hmem, rfl⟩

/-- After the `show_hint` cleanup, the top of the heap (if any) is a cell
that is still empty on the board. -/
theorem cleanTop_top_empty (board : Board) :
    ∀ (fuel : Nat) (pq : List Entry), pq.length ≤ fuel →
      ∀ (e : Entry) (rest : List Entry),
        popMin (cleanTop board fuel pq) = some (e, rest) → board e.row e.col = 0 := by
  intro fuel
  induction fuel with
  | zero =>
    intro pq hlen e rest h
    have hnil : pq = [] := List.length_eq_zero.mp (Nat.le_zero.mp hlen)
    rw [hnil] at h
    simp [cleanTop, popMin] at h
  | succ n ih =>
    intro pq hlen e rest h
    simp only [cleanTop] at h
    cases hm : popMin pq with
    | none =>
      rw [hm] at h
      dsimp only at h
      rw [hm] at h
      simp at h
    | some p =>
      obtain ⟨e0, rest0⟩ := p
      rw [hm] at h
      dsimp only at h
      by_cases hf : board e0.row e0.col ≠ 0
      · rw [if_pos hf] at h
        refine ih rest0 ?_ e rest h
        have := popMin_length hm
        omega
      · rw [if_neg hf] at h
        rw [hm] at h
        simp only [Option.some.injEq, Prod.mk.injEq] at h
        push_neg at hf
        rw [← h.1]
        exact hf

/-- A hint, when produced, names a cell that is still empty. -/
theorem show_hint_some (board : Board) (pq : List Entry) (r c : Fin 9)
    (cs : Finset Nat) (h : (show_hint board pq).1 = some (r, c, cs)) :
    board r c = 0 := by
  unfold show_hint at h
  dsimp only at h
  cases hm : popMin (cleanTop board pq.length pq) with
  | none => rw [hm] at h; simp at h
  | some p =>
    obtain ⟨e, rest⟩ := p
    rw [hm] at h
    dsimp only at h
    simp only [Option.some.injEq, Prod.mk.injEq] at h
    have he := cleanTop_top_empty board pq.length pq le_rfl e rest hm
    rw [← h.1, ← h.2.1]
    exact he

/-- The deduplicated neighbour set is exactly the cells sharing the row, the
column, or the box of `(r, c)` (the cell itself included). -/
theorem mem_neighborList_iff (r c : Fin 9) (p : Fin 9 × Fin 9) :
    p ∈ neighborList r c ↔
      p.1 = r ∨ p.2 = c ∨ (p.1.val / 3 = r.val / 3 ∧ p.2.val / 3 = c.val / 3) := by
  unfold neighborList
  rw [List.mem_dedup]
  simp only [List.mem_append, List.mem_map, List.mem_finRange, List.mem_flatMap,
    true_and, exists_exists_and_eq_and]
  constructor
  · rintro ((⟨i, hi⟩ | ⟨i, hi⟩) | ⟨i, j, hj⟩)
    · exact Or.inl (congrArg Prod.fst hi).symm
    · exact Or.inr (Or.inl (congrArg Prod.snd hi).symm)
    · refine Or.inr (Or.inr ⟨?_, ?_⟩)
      · have h1 : p.1 = boxIdx r i := (congrArg Prod.fst hj).symm
        rw [h1]
        have hi3 := i.isLt
        simp only [boxIdx]
        omega
      · have h2 : p.2 = boxIdx c j := (congrArg Prod.snd hj).symm
        rw [h2]
        have hj3 := j.isLt
        simp only [boxIdx]
        omega
  · rintro (h | h | ⟨h1, h2⟩)
    · exact Or.inl (Or.inl ⟨p.2, by rw [← h]⟩)
    · exact Or.inl (Or.inr ⟨p.1, by rw [← h]⟩)
    · exact Or.inr ⟨subIdx p.1, subIdx p.2, by rw [boxIdx_subIdx h1, boxIdx_subIdx h2]⟩

theorem neighborList_nodup (r c : Fin 9) : (neighborList r c).Nodup :=
  List.nodup_dedup _

theorem neighborList_length : ∀ r c : Fin 9, (neighborList r c).length = 21 := by
  decide

/-- C1: for every permutation digitMap of the digits 1..9 (injective map
into 1..9), the board `solved(r,c) = digitMap[pattern(r,c)]` built by the
generator's canonical pattern is a fully solved valid Sudoku grid (every
cell nonzero, no digit repeated in any row, column or box), and the solved
grid produced by the full generate step (canonical pattern followed by the
symmetry shuffle, before cell removal) satisfies the same validity
invariant. -/
theorem C1_base_pattern_and_generated_solved_valid
    (nums : Fin 9 → Nat) (σR σC : Fin 3 → Fin 3 → Fin 3) (τR τC : Fin 3 → Fin 3)
    (hinj : Function.Injective nums) (hrange : ∀ i, 1 ≤ nums i ∧ nums i ≤ 9)
    (hσR : ∀ b, Function.Injective (σR b)) (hσC : ∀ b, Function.Injective (σC b))
    (hτR : Function.Injective τR) (hτC : Function.Injective τC) :
    validGrid (get_base_pattern nums) ∧
    (∀ r c, get_base_pattern nums r c ≠ 0) ∧
    validGrid (shuffle_board σR σC τR τC (get_base_pattern nums)) := by
  have hvalid := base_pattern_valid nums hinj
  refine ⟨hvalid, fun r c => ?_, shuffle_board_valid σR σC τR τC hσR hσC hτR hτC hvalid⟩
  have := (hrange (pattern r c)).1
  simp only [get_base_pattern]
  omega

/-- Witness for C1 at the identity relabeling and identity shuffle. -/
theorem C1_base_pattern_and_generated_solved_valid_witness :
    validGrid (get_base_pattern (fun i => i.val + 1)) ∧
    (∀ r c, get_base_pattern (fun i => i.val + 1) r c ≠ 0) ∧
    validGrid (shuffle_board (fun _ k => k) (fun _ k => k) id id
      (get_base_pattern (fun i => i.val + 1))) :=
  C1_base_pattern_and_generated_solved_valid (fun i => i.val + 1)
    (fun _ k => k) (fun _ k => k) id id
    (by decide) (by decide) (by decide) (by decide) (by decide) (by decide)

/-- C2: for every grid satisfying the validity invariant, the shuffle
step's four transform classes (rows within bands, columns within stacks via
transpose, whole row bands, whole column stacks), for any choice of the
random permutations, yield a grid that still satisfies the invariant. -/
theorem C2_shuffle_preserves_validity (g : Board)
    (σR σC : Fin 3 → Fin 3 → Fin 3) (τR τC : Fin 3 → Fin 3)
    (hσR : ∀ b, Function.Injective (σR b)) (hσC : ∀ b, Function.Injective (σC b))
    (hτR : Function.Injective τR) (hτC : Function.Injective τC)
    (h : validGrid g) : validGrid (shuffle_board σR σC τR τC g) :=
  shuffle_board_valid σR σC τR τC hσR hσC hτR hτC h

/-- Witness for C2 at a concrete valid grid and concrete permutations. -/
theorem C2_shuffle_preserves_validity_witness :
    validGrid (shuffle_board (fun _ k => ⟨2 - k.val, by omega⟩) (fun _ k => k)
      (fun b => ⟨2 - b.val, by omega⟩) id (get_base_pattern (fun i => 9 - i.val))) :=
  C2_shuffle_preserves_validity (get_base_pattern (fun i => 9 - i.val))
    (fun _ k => ⟨2 - k.val, by omega⟩) (fun _ k => k)
    (fun b => ⟨2 - b.val, by omega⟩) id
    (by decide) (by decide) (by decide) (by decide) (by decide)

/-- C6: for every board, every empty cell and every digit 1..9, the
interactive-move validator `is_valid` agrees with the candidate calculator
`get_candidates`, which in turn equals the specified set {1..9} minus the
row, column and box digits. -/
theorem C6_validator_agrees_with_candidates :
    ∀ (board : Board) (r c : Fin 9) (d : Nat),
      board r c = 0 → 1 ≤ d → d ≤ 9 →
      ((is_valid board r c d = true ↔ d ∈ get_candidates board r c) ∧
        get_candidates board r c = candidatesSpec board r c) := by
  intro board r c d h0 h1 h9
  refine ⟨(mem_candidates_iff_valid board r c d h0 h1 h9).symm, ?_⟩
  unfold get_candidates candidatesSpec
  rw [if_neg (fun hne => hne h0)]
  rw [show (10 : Nat) = 9 + 1 from rfl, Nat.Ico_succ_right]

/-- Witness for C6 on the empty board at cell (0,0) and digit 5. -/
theorem C6_validator_agrees_with_candidates_witness :
    (is_valid emptyBoard 0 0 5 = true ↔ 5 ∈ get_candidates emptyBoard 0 0) ∧
      get_candidates emptyBoard 0 0 = candidatesSpec emptyBoard 0 0 :=
  C6_validator_agrees_with_candidates emptyBoard 0 0 5 rfl (by decide) (by decide)

/-- The lazy-deletion guard alone: a successful automated move always acts
on a cell that was empty when selected, for any digit chooser. -/
theorem aiLoop_row_col_empty (pick : List Nat → Nat) (board : Board) :
    ∀ (fuel : Nat) (pq : List Entry) (res : AIMove),
      aiLoop pick board fuel pq = some res → board res.row res.col = 0 := by
  intro fuel
  induction fuel with
  | zero => intro pq res h; simp [aiLoop] at h
  | succ n ih =>
    intro pq res h
    simp only [aiLoop] at h
    cases hm : popMin pq with
    | none => rw [hm] at h; simp at h
    | some p =>
      obtain ⟨e, rest⟩ := p
      rw [hm] at h
      dsimp only at h
      by_cases hfill : board e.row e.col ≠ 0
      · rw [if_pos hfill] at h
        exact ih rest res h
      · rw [if_neg hfill] at h
        by_cases hc : get_candidates board e.row e.col = ∅
        · rw [if_pos hc] at h
          simp at h
        · rw [if_neg hc] at h
          simp only [Option.some.injEq] at h
          rw [← h]
          push_neg at hfill
          exact hfill

theorem erase_cells_pointwise :
    ∀ (l : List (Fin 9 × Fin 9)) (g : Board) (x y : Fin 9),
      erase_cells g l x y = 0 ∨ erase_cells g l x y = g x y := by
  intro l
  induction l with
  | nil => intro g x y; exact Or.inr rfl
  | cons p ps ih =>
    intro g x y
    simp only [erase_cells]
    rcases ih (updateB g p.1 p.2 0) x y with h | h
    · exact Or.inl h
    · by_cases hxy : x = p.1 ∧ y = p.2
      · rw [h, hxy.1, hxy.2, updateB_same]
        exact Or.inl rfl
      · rw [h, updateB_other g p.1 p.2 x y 0 hxy]
        exact Or.inr rfl

theorem erase_cells_zero :
    ∀ (l : List (Fin 9 × Fin 9)) (g : Board) (p : Fin 9 × Fin 9), p ∈ l →
      erase_cells g l p.1 p.2 = 0 := by
  intro l
  induction l with
  | nil => intro g p hp; simp at hp
  | cons q qs ih =>
    intro g p hp
    simp only [erase_cells]
    rcases List.mem_cons.mp hp with heq | hmem
    · rcases erase_cells_pointwise qs (updateB g q.1 q.2 0) p.1 p.2 with h | h
      · exact h
      · rw [heq] at h ⊢
        rw [h, updateB_same]
    · exact ih (updateB g q.1 q.2 0) p hmem

/-- In a puzzle obtained by zeroing cells of a fully filled valid grid,
every zeroed cell keeps its solution digit as a live candidate. -/
theorem erased_cell_has_candidate {full : Board} (hval : validGrid full)
    (hrange : ∀ r c, 1 ≤ full r c ∧ full r c ≤ 9)
    (l : List (Fin 9 × Fin 9)) (p : Fin 9 × Fin 9) (hp : p ∈ l) :
    full p.1 p.2 ∈ get_candidates (erase_cells full l) p.1 p.2 := by
  obtain ⟨hrow, hcol, hbox⟩ := hval
  have h0 : erase_cells full l p.1 p.2 = 0 := erase_cells_zero l full p hp
  have hd1 := (hrange p.1 p.2).1
  have hd9 := (hrange p.1 p.2).2
  rw [mem_get_candidates_iff _ _ _ _ h0]
  refine ⟨⟨hd1, hd9⟩, ?_, ?_, ?_⟩
  · intro hmem
    obtain ⟨j, _, hj⟩ := Finset.mem_image.mp hmem
    rcases erase_cells_pointwise l full p.1 j with hz | he
    · rw [hz] at hj
      omega
    · rw [he] at hj
      have hjp : j = p.2 := hrow p.1 j p.2 (by omega) hj
      rw [hjp] at he
      rw [h0] at he
      omega
  · intro hmem
    obtain ⟨i, _, hi⟩ := Finset.mem_image.mp hmem
    rcases erase_cells_pointwise l full i p.2 with hz | he
    · rw [hz] at hi
      omega
    · rw [he] at hi
      have hip : i = p.1 := hcol p.2 i p.1 (by omega) hi
      rw [hip] at he
      rw [← he] at hi
      rw [h0] at hi
      omega
  · intro hmem
    obtain ⟨q, _, hq⟩ := Finset.mem_image.mp hmem
    rcases erase_cells_pointwise l full (boxIdx p.1 q.1) (boxIdx p.2 q.2) with hz | he
    · rw [hz] at hq
      omega
    · rw [he] at hq
      have hb1 : (boxIdx p.1 q.1).val / 3 = p.1.val / 3 := by
        have := q.1.isLt
        simp only [boxIdx]
        omega
      have hb2 : (boxIdx p.2 q.2).val / 3 = p.2.val / 3 := by
        have := q.2.isLt
        simp only [boxIdx]
        omega
      obtain ⟨hr1, hc1⟩ := hbox (boxIdx p.1 q.1) (boxIdx p.2 q.2) p.1 p.2 hb1 hb2
        (by omega) hq
      rw [hr1, hc1] at he
      rw [← he] at hq
      rw [h0] at hq
      omega

/-- C4 (amended): `update_neighbors` recomputes candidates for the
deduplicated neighbour set — exactly the 21 distinct cells sharing row `r`,
column `c` or the box of `(r, c)`, the cell `(r, c)` itself included — and
appends one fresh entry per neighbour unconditionally: entries with empty
candidate snapshots and entries for filled cells are inserted as well, to
be filtered lazily at extraction time. -/
theorem C4_update_neighbors_appends_all_neighbors :
    ∀ (pq : List Entry) (board : Board) (r c : Fin 9),
      (∀ e : Entry, e ∈ update_neighbors pq board r c ↔
        e ∈ pq ∨ ∃ p : Fin 9 × Fin 9,
          (p.1 = r ∨ p.2 = c ∨ (p.1.val / 3 = r.val / 3 ∧ p.2.val / 3 = c.val / 3)) ∧
          e = entryFor board p) ∧
      (neighborList r c).Nodup ∧ (neighborList r c).length = 21 := by
  intro pq board r c
  refine ⟨fun e => ?_, neighborList_nodup r c, neighborList_length r c⟩
  unfold update_neighbors
  rw [List.mem_append, List.mem_map]
  constructor
  · rintro (h | ⟨p, hp, he⟩)
    · exact Or.inl h
    · exact Or.inr ⟨p, (mem_neighborList_iff r c p).mp hp, he.symm⟩
  · rintro (h | ⟨p, hp, he⟩)
    · exact Or.inl h
    · exact Or.inr ⟨p, (mem_neighborList_iff r c p).mpr hp, he.symm⟩

/-- C4 counterexample: on the board holding 5 at (0,0), refreshing the
neighbours of (0,0) inserts the entry (0, 0, 0, empty set) — an entry for a
cell that is filled, with an empty recomputed candidate set — contradicting
the claim that no such entry is ever inserted. -/
theorem C4_counterexample :
    cexBoard 0 0 ≠ 0 ∧ get_candidates cexBoard 0 0 = ∅ ∧
    (⟨0, 0, 0, ∅⟩ : Entry) ∈ update_neighbors [] cexBoard 0 0 := by
  refine ⟨by decide, by decide, ?_⟩
  decide

/-- C5 counterexample: with the user to move and the unlocked cell (0,0)
currently holding 5, submitting the out-of-range number 12 is rejected
through the ValueError branch, but the grid changes: the target cell is
zeroed, so it does not hold the same value as before. -/
theorem C5_counterexample :
    (on_cell_edit cexState 0 0 (Input.num 12)).2 = EditResult.parseError ∧
    cexState.board 0 0 = 5 ∧
    (on_cell_edit cexState 0 0 (Input.num 12)).1.board 0 0 = 0 := by
  refine ⟨by decide, by decide, by decide⟩

/-- C5 (amended): with the user to move and an unlocked target cell, an
out-of-range number or a non-numeric input is rejected with the ValueError
outcome and the grid changes in exactly one way: the target cell is zeroed
while every other cell keeps its value; hence the grid is wholly unchanged
only when the target cell was already empty. -/
theorem C5_out_of_range_rejected_zeroes_cell :
    ∀ (s : GameState) (r c : Fin 9) (inp : Input),
      s.current_turn = Turn.user → s.initial_board r c = 0 →
      (inp = Input.other ∨ ∃ n : Int, inp = Input.num n ∧ (n < 1 ∨ 9 < n)) →
      (on_cell_edit s r c inp).2 = EditResult.parseError ∧
      (on_cell_edit s r c inp).1.board = updateB s.board r c 0 ∧
      ∀ x y : Fin 9, ¬(x = r ∧ y = c) →
        (on_cell_edit s r c inp).1.board x y = s.board x y := by
  intro s r c inp ht hl hinp
  have ht2 : ¬(s.current_turn ≠ Turn.user) := fun h => h ht
  have hl2 : ¬(s.initial_board r c ≠ 0) := fun h => h hl
  rcases hinp with h | ⟨n, hn, hrange⟩
  · subst h
    simp only [on_cell_edit, if_neg ht2, if_neg hl2]
    exact ⟨trivial, trivial, fun x y hxy => updateB_other s.board r c x y 0 hxy⟩
  · subst hn
    simp only [on_cell_edit, if_neg ht2, if_neg hl2, if_pos hrange]
    exact ⟨trivial, trivial, fun x y hxy => updateB_other s.board r c x y 0 hxy⟩

/-- Witness for the amended C5 on the concrete session with 5 at (0,0). -/
theorem C5_out_of_range_rejected_zeroes_cell_witness :
    (on_cell_edit cexState 0 0 (Input.num 12)).2 = EditResult.parseError ∧
    (on_cell_edit cexState 0 0 (Input.num 12)).1.board = updateB cexState.board 0 0 0 ∧
    ∀ x y : Fin 9, ¬(x = 0 ∧ y = 0) →
      (on_cell_edit cexState 0 0 (Input.num 12)).1.board x y = cexState.board x y :=
  C5_out_of_range_rejected_zeroes_cell cexState 0 0 (Input.num 12) rfl rfl
    (Or.inr ⟨12, rfl, by decide⟩)

/-- C3: from any session whose grid satisfies the validity invariant, a
successful human move (an accepted `on_cell_edit` digit) and a successful
automated move (`ai_make_move` placing a digit) both leave a grid that
still satisfies the invariant: the newly written digit conflicts with no
peer in its row, column or box. -/
theorem C3_moves_preserve_validity :
    (∀ (s : GameState) (r c : Fin 9) (inp : Input),
      validGrid s.board → (on_cell_edit s r c inp).2 = EditResult.accepted →
      validGrid (on_cell_edit s r c inp).1.board) ∧
    (∀ (pick : List Nat → Nat) (pq : List Entry) (board : Board),
      (∀ l : List Nat, l ≠ [] → pick l ∈ l) → validGrid board →
      ∀ h : (ai_make_move pick pq board).isSome = true,
        validGrid ((ai_make_move pick pq board).get h).board) := by
  constructor
  · intro s r c inp hvalid hacc
    by_cases ht : s.current_turn ≠ Turn.user
    · unfold on_cell_edit at hacc
      rw [if_pos ht] at hacc
      simp at hacc
    · by_cases hlk : s.initial_board r c ≠ 0
      · unfold on_cell_edit at hacc
        rw [if_neg ht, if_pos hlk] at hacc
        simp at hacc
      · cases inp with
        | empty =>
          unfold on_cell_edit at hacc
          rw [if_neg ht, if_neg hlk] at hacc
          simp at hacc
        | other =>
          unfold on_cell_edit at hacc
          rw [if_neg ht, if_neg hlk] at hacc
          simp at hacc
        | num n =>
          by_cases hrg : n < 1 ∨ 9 < n
          · unfold on_cell_edit at hacc
            rw [if_neg ht, if_neg hlk] at hacc
            dsimp only at hacc
            rw [if_pos hrg] at hacc
            simp at hacc
          · by_cases hv : is_valid (updateB s.board r c 0) r c n.toNat = true
            · have hgoal : (on_cell_edit s r c (Input.num n)).1.board =
                  updateB (updateB s.board r c 0) r c n.toNat := by
                unfold on_cell_edit
                rw [if_neg ht, if_neg hlk]
                dsimp only
                rw [if_neg hrg, if_pos hv]
                by_cases hcmp :
                    is_complete (updateB (updateB s.board r c 0) r c n.toNat) = true
                · rw [if_pos hcmp]
                · rw [if_neg hcmp]
              rw [hgoal]
              exact validGrid_update (validGrid_clear r c hvalid) hv
            · unfold on_cell_edit at hacc
              rw [if_neg ht, if_neg hlk] at hacc
              dsimp only at hacc
              rw [if_neg hrg, if_neg hv] at hacc
              simp at hacc
  · intro pick pq board hpick hvalid h
    obtain ⟨hempty, hmem, hboard⟩ := aiLoop_some pick board hpick pq.length pq _
      (Option.some_get h).symm
    rw [hboard]
    have hval := (mem_get_candidates_iff board _ _ _ hempty).mp hmem
    exact validGrid_update hvalid ((is_valid_true_iff board _ _ _).mpr hval.2)

/-- Witness for C3: the accepted human move 5 at (0,0) on the fresh empty
session, and the automated move popped from a one-entry frontier over the
empty board, both yield valid grids. -/
theorem C3_moves_preserve_validity_witness :
    validGrid (on_cell_edit wState 0 0 (Input.num 5)).1.board ∧
    validGrid ((ai_make_move pickHead pq1 emptyBoard).get (by decide)).board := by
  constructor
  · exact C3_moves_preserve_validity.1 wState 0 0 (Input.num 5) (by decide) (by decide)
  · exact C3_moves_preserve_validity.2 pickHead pq1 emptyBoard
      (fun l hl => by
        cases l with
        | nil => exact absurd rfl hl
        | cons a t => exact List.mem_cons_self a t)
      (by decide) (by decide)

/-- C7: frontier soundness — whenever the extraction loop of `ai_make_move`
selects a cell to act on, that cell is still empty in the current grid
(stale entries for filled cells are always discarded), and the hint's peek
likewise only ever names a still-empty cell. -/
theorem C7_frontier_never_returns_filled_cell :
    (∀ (pick : List Nat → Nat) (pq : List Entry) (board : Board)
      (h : (ai_make_move pick pq board).isSome = true),
      board ((ai_make_move pick pq board).get h).row
        ((ai_make_move pick pq board).get h).col = 0) ∧
    (∀ (board : Board) (pq : List Entry) (r c : Fin 9) (cs : Finset Nat),
      (show_hint board pq).1 = some (r, c, cs) → board r c = 0) := by
  constructor
  · intro pick pq board h
    exact aiLoop_row_col_empty pick board pq.length pq _ (Option.some_get h).symm
  · exact fun board pq r c cs h => show_hint_some board pq r c cs h

/-- Witness for C7 on the one-entry frontier over the empty board. -/
theorem C7_frontier_never_returns_filled_cell_witness :
    emptyBoard ((ai_make_move pickHead pq1 emptyBoard).get (by decide)).row
      ((ai_make_move pickHead pq1 emptyBoard).get (by decide)).col = 0 ∧
    emptyBoard 0 0 = 0 := by
  constructor
  · exact C7_frontier_never_returns_filled_cell.1 pickHead pq1 emptyBoard (by decide)
  · exact C7_frontier_never_returns_filled_cell.2 emptyBoard pq1 0 0
      (get_candidates emptyBoard 0 0) (by decide)

/-- C8: after reset the grid equals the clue mask exactly, and whenever the
mask has a zero entry, `is_complete` evaluated after reset is false. -/
theorem C8_reset_restores_mask :
    ∀ s : GameState, (reset_board s).board = s.initial_board ∧
      ∀ r c : Fin 9, s.initial_board r c = 0 →
        is_complete (reset_board s).board = false := by
  intro s
  refine ⟨rfl, fun r c h => ?_⟩
  have hnot : ¬(is_complete (reset_board s).board = true) := by
    intro hc
    unfold is_complete at hc
    rw [List.all_eq_true] at hc
    have h1 := hc r (List.mem_finRange r)
    rw [List.all_eq_true] at h1
    have h2 := h1 c (List.mem_finRange c)
    rw [decide_eq_true_eq] at h2
    exact h2 h
  exact Bool.eq_false_iff.mpr hnot

/-- Witness for C8 on the fresh empty session. -/
theorem C8_reset_restores_mask_witness :
    (reset_board wState).board = wState.initial_board ∧
    is_complete (reset_board wState).board = false :=
  ⟨(C8_reset_restores_mask wState).1, (C8_reset_restores_mask wState).2 0 0 rfl⟩

/-- C9: after `__init__` (which runs `new_game` and then assigns
`self.pq = []`) the frontier of the fresh session is empty, even though
every removed cell of the generated puzzle is empty with a nonempty
candidate set; consequently the first automated move returns no move and
the first hint reports nothing. -/
theorem C9_init_session_has_empty_frontier :
    ∀ (nums : Fin 9 → Nat) (σR σC : Fin 3 → Fin 3 → Fin 3) (τR τC : Fin 3 → Fin 3)
      (rem : List (Fin 9 × Fin 9)) (pick : List Nat → Nat) (p : Fin 9 × Fin 9),
      Function.Injective nums → (∀ i, 1 ≤ nums i ∧ nums i ≤ 9) →
      (∀ b, Function.Injective (σR b)) → (∀ b, Function.Injective (σC b)) →
      Function.Injective τR → Function.Injective τC →
      p ∈ rem →
      (init_session nums σR σC τR τC rem).pq = [] ∧
      ai_make_move pick (init_session nums σR σC τR τC rem).pq
        (init_session nums σR σC τR τC rem).board = none ∧
      (show_hint (init_session nums σR σC τR τC rem).board
        (init_session nums σR σC τR τC rem).pq).1 = none ∧
      (init_session nums σR σC τR τC rem).board p.1 p.2 = 0 ∧
      get_candidates (init_session nums σR σC τR τC rem).board p.1 p.2 ≠ ∅ := by
  intro nums σR σC τR τC rem pick p hinj hrange hσR hσC hτR hτC hp
  refine ⟨rfl, rfl, rfl, ?_, ?_⟩
  · exact erase_cells_zero rem (shuffle_board σR σC τR τC (get_base_pattern nums)) p hp
  · have hvalid : validGrid (shuffle_board σR σC τR τC (get_base_pattern nums)) :=
      shuffle_board_valid σR σC τR τC hσR hσC hτR hτC (base_pattern_valid nums hinj)
    have hrange2 : ∀ r c, 1 ≤ shuffle_board σR σC τR τC (get_base_pattern nums) r c ∧
        shuffle_board σR σC τR τC (get_base_pattern nums) r c ≤ 9 :=
      shuffle_board_pointwise σR σC τR τC (get_base_pattern nums)
        (fun v => 1 ≤ v ∧ v ≤ 9) (fun r c => hrange (pattern r c))
    exact Finset.ne_empty_of_mem (erased_cell_has_candidate hvalid hrange2 rem p hp)

/-- Witness for C9 at the identity relabeling, identity shuffle and the
single removed cell (0,0). -/
theorem C9_init_session_has_empty_frontier_witness :
    (init_session (fun i => i.val + 1) (fun _ k => k) (fun _ k => k) id id [(0, 0)]).pq = [] ∧
    ai_make_move pickHead
      (init_session (fun i => i.val + 1) (fun _ k => k) (fun _ k => k) id id [(0, 0)]).pq
      (init_session (fun i => i.val + 1) (fun _ k => k) (fun _ k => k) id id [(0, 0)]).board
      = none ∧
    (show_hint
      (init_session (fun i => i.val + 1) (fun _ k => k) (fun _ k => k) id id [(0, 0)]).board
      (init_session (fun i => i.val + 1) (fun _ k => k) (fun _ k => k) id id [(0, 0)]).pq).1
      = none ∧
    (init_session (fun i => i.val + 1) (fun _ k => k) (fun _ k => k) id id
      [(0, 0)]).board (0 : Fin 9) (0 : Fin 9) = 0 ∧
    get_candidates
      (init_session (fun i => i.val + 1) (fun _ k => k) (fun _ k => k) id id [(0, 0)]).board
      (0 : Fin 9) (0 : Fin 9) ≠ ∅ :=
  C9_init_session_has_empty_frontier (fun i => i.val + 1) (fun _ k => k) (fun _ k => k)
    id id [(0, 0)] pickHead (0, 0)
    (by decide) (by decide) (by decide) (by decide) (by decide) (by decide) (by decide)

/-- C10: `reset_board` restores the grid from the clue snapshot and resets
the turn flag and cell colours, but leaves the frontier `pq` completely
unchanged — every entry inserted during the previous play-through survives
the reset. -/
theorem C10_reset_board_leaves_frontier_untouched :
    ∀ s : GameState,
      (reset_board s).pq = s.pq ∧
      (∀ e : Entry, e ∈ (reset_board s).pq ↔ e ∈ s.pq) ∧
      (reset_board s).board = s.initial_board ∧
      (reset_board s).current_turn = Turn.user ∧
      (reset_board s).cell_colors = (fun _ _ => none) ∧
      (reset_board s).initial_board = s.initial_board := by
  intro s
  exact ⟨rfl, fun e => Iff.rfl, rfl, rfl, rfl, rfl⟩
